import Mathlib

/-!
Verification of the DIPlib broadcasting/dispatch framework and the
labeled-regions operations against their natural-language specification.
Sources embedded directly: `src/library/framework.cpp` and
`src/measurement/feature_grey_dimensions_cube.h`.  Operations only declared
in `include/diplib/regions.h`, whose implementations are not among the given
sources, are modelled from the specification; their doc comments say so.
-/

namespace Dip

/-- Errors raised by the modelled operations (spec, error handling design). -/
inductive DipError where
  | dimensionMismatch
  | notScalar
  | dimensionalityNotSupported
  | notImplemented
  deriving DecidableEq

/-- One iteration of the inner loop of the static helper
`SingletonExpandedSize(size, size2)` in `framework.cpp`: combine the pair
`(size[jj], size2[jj])`.  If the entries differ: a 1 on the left is replaced
by the right entry, a non-1 right entry that is not matched throws
`DIMENSIONS_DONT_MATCH`, and a 1 on the right keeps the left entry. -/
def combineDim (a b : Nat) : Except DipError Nat :=
  if a ≠ b then
    if a = 1 then .ok b
    else if b ≠ 1 then .error .dimensionMismatch
    else .ok a
  else .ok a

/-- The loop of the static helper: rewrites the entries of `size` paired with
`size2`; entries of `size` past `size2.length` are left unchanged because the
loop runs over `size2`.  The `[], _ :: _` case cannot occur after the padding
done by `SingletonExpandedSizePair`. -/
def combineDims : List Nat → List Nat → Except DipError (List Nat)
  | s, [] => .ok s
  | [], _ :: _ => .error .dimensionMismatch
  | a :: s, b :: t => do
      let c ← combineDim a b
      let r ← combineDims s t
      pure (c :: r)

/-- The static helper `SingletonExpandedSize(size, size2)` in `framework.cpp`:
`size` is right-padded with singleton entries up to `size2.length`
(`size.resize(size2.size(), 1)` runs only when `size` is shorter, and padding
by zero entries otherwise is the identity), then combined entry-wise. -/
def SingletonExpandedSizePair (size size2 : List Nat) : Except DipError (List Nat) :=
  combineDims (size ++ List.replicate (size2.length - size.length) 1) size2

/-- `SingletonExpandedSize(in)` in `framework.cpp`: start from the first
operand's shape and fold the pairwise helper left to right over the rest.
The C++ requires at least one operand (`in[0]` is read unconditionally). -/
def SingletonExpandedSize : List (List Nat) → Except DipError (List Nat)
  | [] => .error .dimensionMismatch
  | s :: rest => rest.foldlM SingletonExpandedSizePair s

/-- Spec (data model): the singleton-expandable rule on one dimension pair:
the two sizes are equal or at least one side equals 1; the result dimension
takes the non-1 value; both unequal and neither 1 is a `DimensionMismatch`. -/
def specPairDim (a b : Nat) : Except DipError Nat :=
  if a = b then .ok a
  else if a = 1 then .ok b
  else if b = 1 then .ok a
  else .error .dimensionMismatch

/-- Right-pad a shape with singleton dimensions up to rank `n`. -/
def padTo (n : Nat) (s : List Nat) : List Nat :=
  s ++ List.replicate (n - s.length) 1

/-- Combine two shapes of equal rank dimension-wise under `specPairDim`. -/
def zipSpecDims : List Nat → List Nat → Except DipError (List Nat)
  | [], [] => .ok []
  | [], _ :: _ => .error .dimensionMismatch
  | _ :: _, [] => .error .dimensionMismatch
  | a :: s, b :: t => do
      let c ← specPairDim a b
      let r ← zipSpecDims s t
      pure (c :: r)

/-- Spec (data model): the singleton-expandable rule on two shapes:
right-pad the shorter with size-1 entries, then combine per dimension. -/
def broadcastPairSpec (s t : List Nat) : Except DipError (List Nat) :=
  zipSpecDims (padTo (max s.length t.length) s) (padTo (max s.length t.length) t)

/-- Spec `ComputeBroadcastShape`: left-to-right fold of the
singleton-expandable rule over the operand shapes. -/
def ComputeBroadcastShape : List (List Nat) → Except DipError (List Nat)
  | [] => .error .dimensionMismatch
  | s :: rest => rest.foldlM broadcastPairSpec s

/-- Loop body of `OptimalProcessingDim` in `framework.cpp`
(`SMALL_IMAGE = 63`): given the current `processingDim` `pd` and the loop
index `ii`, return the new `processingDim`.  Strides are compared as signed
integers, exactly as the C++ compares `dip::sint` values. -/
def opdStep (strides : List Int) (dims : List Nat) (pd ii : Nat) : Nat :=
  if strides.getD ii 0 < strides.getD pd 0 then
    if 63 < dims.getD ii 0 ∨ dims.getD pd 0 < dims.getD ii 0 then ii else pd
  else if dims.getD pd 0 ≤ 63 ∧ dims.getD pd 0 < dims.getD ii 0 then ii else pd

/-- The loop `for (ii = 1; ii < strides.size(); ++ii)` of
`OptimalProcessingDim`, with an explicit fuel bounding the remaining
iterations; the loop itself stops when `ii` reaches `strides.length`, and
`OptimalProcessingDim` passes enough fuel for that exit to be the one
taken. -/
def opdGo (strides : List Int) (dims : List Nat) : Nat → Nat → Nat → Nat
  | 0, pd, _ => pd
  | fuel + 1, pd, ii =>
      if ii < strides.length then
        opdGo strides dims fuel (opdStep strides dims pd ii) (ii + 1)
      else pd

/-- `OptimalProcessingDim` in `framework.cpp`: scan dimensions `1, 2, ...`
left to right starting from `processingDim = 0`. -/
def OptimalProcessingDim (strides : List Int) (dims : List Nat) : Nat :=
  opdGo strides dims strides.length 0 1

/-- Modelled from the spec: `Relabel` is declared in `include/diplib/regions.h`
but its implementation is not among the given sources.  Per the spec it
renumbers the distinct positive labels present to the contiguous range
`1..K` in ascending order of original label value; background 0 stays 0.
`presentLabels` lists the distinct positive labels in ascending order. -/
def presentLabels (label : List Nat) : List Nat :=
  (List.range (label.foldr max 0 + 1)).filter (fun v => v != 0 && label.contains v)

/-- Modelled from the spec: the `Relabel` renumbering: each positive label
value is replaced by its 1-based rank among the distinct positive labels
present; 0 is kept. -/
def Relabel (label : List Nat) : List Nat :=
  label.map (fun v => if v = 0 then 0 else (presentLabels label).indexOf v + 1)

/-- Modelled from the spec: the units half of `PhysicalQuantity`
(`diplib/physquan.h` is not among the given sources): a pixel-size unit is
the dimensionless pixel count or a physical unit identified by a code. -/
inductive PixUnits where
  | pixel
  | physical (code : Nat)
  deriving DecidableEq

/-- Modelled from the spec: `PhysicalQuantity::IsPhysical`, true exactly for
physical (non-pixel-count) units. -/
def IsPhysical : PixUnits → Bool
  | .pixel => false
  | .physical _ => true

/-- One entry of the `ValueInformationArray` a feature's initialization
returns (`diplib/measurement.h` is not among the given sources; the fields
mirror the two the embedded code writes). -/
structure ValueInformation where
  units : PixUnits
  name : String
  deriving DecidableEq

/-- `FeatureGreyDimensionsCube::Initialize` from
`feature_grey_dimensions_cube.h`.  The image arguments are abstracted to
exactly the data the code reads: whether `grey` is scalar, the
dimensionality of `label`, and `label`'s per-axis pixel-size units. -/
def InitializeGreyDimensionsCube (greyIsScalar : Bool) (nD : Nat)
    (pixelSize : Nat → PixUnits) : Except DipError (List ValueInformation) :=
  if !greyIsScalar then .error .notScalar
  else if nD < 2 ∨ 3 < nD then .error .dimensionalityNotSupported
  else
    let pq := pixelSize 0
    let sameUnits := IsPhysical pq &&
      (List.range' 1 (nD - 1)).all (fun ii => pixelSize ii == pq)
    let units := if sameUnits then pq else .pixel
    .ok ((List.range nD).map (fun ii => ⟨units, "axis" ++ toString ii⟩))

/-- The claim-side unit condition for `Initialize`: all axes of the
`nD`-dimensional image share one and the same physical pixel-size unit. -/
def AllAxesSamePhysicalUnit (nD : Nat) (pixelSize : Nat → PixUnits) : Prop :=
  IsPhysical (pixelSize 0) = true ∧ ∀ i < nD, pixelSize i = pixelSize 0

instance (nD : Nat) (ps : Nat → PixUnits) :
    Decidable (AllAxesSamePhysicalUnit nD ps) := by
  unfold AllAxesSamePhysicalUnit; infer_instance

/-- Modelled from the spec: `GrowRegions` is declared in
`include/diplib/regions.h` but its implementation is not among the given
sources.  Images are pixel-indexed `0..n-1`; `adj` abstracts the
connectivity-induced neighbour relation and `mask` the optional constraint
(all-true when no mask is given).  One growth step: a pixel keeps a nonzero
label; a background pixel inside the mask adjacent to exactly one distinct
nonzero label receives it, while one adjacent to two or more distinct
labels stays unassigned (growth stops at collisions). -/
def GrowStep (n : Nat) (adj : Nat → Nat → Bool) (mask : Nat → Bool)
    (lab : List Nat) : List Nat :=
  (List.range n).map fun p =>
    let cur := lab.getD p 0
    if cur ≠ 0 then cur
    else if mask p = false then 0
    else
      match ((((List.range n).filter (fun q => adj p q)).map
          (fun q => lab.getD q 0)).filter (fun v => v != 0)).dedup with
      | [v] => v
      | _ => 0

/-- Modelled from the spec: `GrowRegions` dilates the labelled regions
`iterations` steps; `iterations = 0` grows until no further change is
possible, which is reached within `n + 1` steps because each productive
step labels at least one of the `n` pixels. -/
def GrowRegions (n : Nat) (adj : Nat → Nat → Bool) (mask : Nat → Bool)
    (lab : List Nat) (iterations : Nat) : List Nat :=
  if iterations = 0 then (GrowStep n adj mask)^[n + 1] lab
  else (GrowStep n adj mask)^[iterations] lab

/-- Modelled from the spec: one relaxation round of the grey-weighted
growth: each unlabelled pixel is claimed by the labelled neighbour of least
accumulated cost, the increment being the pixel's grey value plus the
metric's step weight.  State: one `(label, cost)` pair per pixel. -/
def WeightedGrowStep (n : Nat) (adj : Nat → Nat → Bool) (grey : List Nat)
    (stepWeight : Nat) (st : List (Nat × Nat)) : List (Nat × Nat) :=
  (List.range n).map fun p =>
    let cur := st.getD p (0, 0)
    if cur.1 ≠ 0 then cur
    else
      let cands := (((List.range n).filter (fun q => adj p q)).map
          (fun q => st.getD q (0, 0))).filter (fun c => c.1 != 0)
      match cands.foldl
          (fun best c =>
            match best with
            | none => some (c.1, c.2 + grey.getD p 0 + stepWeight)
            | some b =>
                if c.2 + grey.getD p 0 + stepWeight < b.2 then
                  some (c.1, c.2 + grey.getD p 0 + stepWeight)
                else b)
          none with
      | none => (0, 0)
      | some b => b

/-- Modelled from the spec: the unmasked grey-weighted growth: Dijkstra-like
frontier expansion, here as `n + 1` relaxation rounds over the pixels. -/
def WeightedGrowCore (n : Nat) (adj : Nat → Nat → Bool) (lab grey : List Nat)
    (stepWeight : Nat) : List Nat :=
  ((WeightedGrowStep n adj grey stepWeight)^[n + 1]
    (lab.map (fun v => (v, 0)))).map Prod.fst

/-- Modelled from the spec: `GrowRegionsWeighted` is declared in
`include/diplib/regions.h` but its implementation is not among the given
sources; its documentation says the optional mask limits the growing
"(not yet implemented!)".  A non-empty mask is that documented-missing
combination and raises `NotImplemented`; with no mask the growth itself
runs.  The `Metric` is abstracted to its per-step weight. -/
def GrowRegionsWeighted (n : Nat) (adj : Nat → Nat → Bool)
    (lab grey : List Nat) (mask : List Bool) (stepWeight : Nat) :
    Except DipError (List Nat) :=
  if mask ≠ [] then .error .notImplemented
  else .ok (WeightedGrowCore n adj lab grey stepWeight)

/-- Modelled from the spec: the labeling engine (`Label`) is declared in
`include/diplib/regions.h` but its implementation is not among the given
sources.  Pixels are indexed `0..n-1`; `adj` abstracts the
connectivity-induced neighbour relation and `mask` the binary input.
`nbrs p` is the set of foreground neighbours of `p`. -/
def nbrs (n : Nat) (adj : Nat → Nat → Bool) (mask : Nat → Bool) (p : Nat) :
    Finset Nat :=
  (Finset.range n).filter (fun q => adj p q = true ∧ mask q = true)

/-- One saturation step towards a connected component: add all foreground
neighbours of the current set. -/
def grow1 (n : Nat) (adj : Nat → Nat → Bool) (mask : Nat → Bool)
    (S : Finset Nat) : Finset Nat :=
  S ∪ S.biUnion (nbrs n adj mask)

/-- The connected component of pixel `p`: saturate `{p}` under foreground
adjacency; `n` steps suffice on `n` pixels. -/
def component (n : Nat) (adj : Nat → Nat → Bool) (mask : Nat → Bool)
    (p : Nat) : Finset Nat :=
  (grow1 n adj mask)^[n] {p}

/-- The representative of `p`'s component: its least pixel (`p` itself if
the component were empty, which cannot happen since `p` always belongs). -/
def CompRep (n : Nat) (adj : Nat → Nat → Bool) (mask : Nat → Bool)
    (p : Nat) : Nat :=
  (component n adj mask p).min.untop' p

/-- The component representatives in increasing pixel order: the labels the
modelled `Label` assigns are the 1-based positions in this list. -/
def CompReps (n : Nat) (adj : Nat → Nat → Bool) (mask : Nat → Bool) :
    List Nat :=
  (List.range n).filter (fun p => mask p && (CompRep n adj mask p == p))

/-- The label assigned before size filtering: a foreground pixel gets the
1-based index of its component representative, background gets 0. -/
def RawLabel (n : Nat) (adj : Nat → Nat → Bool) (mask : Nat → Bool)
    (p : Nat) : Nat :=
  if p < n ∧ mask p = true then
    (CompReps n adj mask).indexOf (CompRep n adj mask p) + 1
  else 0

/-- Number of pixels carrying raw label `ℓ`: the measured object size. -/
def LabelSize (n : Nat) (adj : Nat → Nat → Bool) (mask : Nat → Bool)
    (ℓ : Nat) : Nat :=
  ((Finset.range n).filter (fun p => RawLabel n adj mask p = ℓ)).card

/-- The size filter of `Label`: objects smaller than `minSize` or larger
than `maxSize` are removed; 0 disables the corresponding bound. -/
def SizeInBounds (minSize maxSize sz : Nat) : Bool :=
  decide (minSize ≤ sz) && (maxSize == 0 || decide (sz ≤ maxSize))

/-- Modelled from the spec: `Label(mask, connectivity, minSize, maxSize)`:
returns the object count surviving the size filter together with the label
array; filtered objects are reset to 0 and survivors keep their raw,
non-renumbered label. -/
def Label (n : Nat) (adj : Nat → Nat → Bool) (mask : Nat → Bool)
    (minSize maxSize : Nat) : Nat × List Nat :=
  let keep : Nat → Bool := fun ℓ =>
    SizeInBounds minSize maxSize (LabelSize n adj mask ℓ)
  (((CompReps n adj mask).filter (fun r => keep (RawLabel n adj mask r))).length,
   (List.range n).map (fun p =>
     let ℓ := RawLabel n adj mask p
     if ℓ = 0 then 0 else if keep ℓ then ℓ else 0))

/-- The foreground pixels of the mask. -/
def Foreground (n : Nat) (mask : Nat → Bool) : Finset Nat :=
  (Finset.range n).filter (fun p => mask p = true)

/-- The set of connected components of the mask: the claim-side notion the
returned object count is measured against. -/
def Components (n : Nat) (adj : Nat → Nat → Bool) (mask : Nat → Bool) :
    Finset (Finset Nat) :=
  (Foreground n mask).image (component n adj mask)

/-- The components whose pixel count passes the size filter. -/
def ComponentsInBounds (n : Nat) (adj : Nat → Nat → Bool) (mask : Nat → Bool)
    (minSize maxSize : Nat) : Finset (Finset Nat) :=
  (Components n adj mask).filter
    (fun c => SizeInBounds minSize maxSize c.card = true)

/-- Modelled from the spec: the binary path of `SmallObjectsRemove`
(declared in `include/diplib/regions.h`, implementation not among the given
sources): `Label` with `minSize = threshold` and no upper bound, then
binarize the result. -/
def SmallObjectsRemove (n : Nat) (adj : Nat → Nat → Bool) (mask : Nat → Bool)
    (threshold : Nat) : List Bool :=
  (List.range n).map
    (fun p => decide ((Label n adj mask threshold 0).2.getD p 0 ≠ 0))

theorem combineDim_eq_specPairDim (a b : Nat) :
    combineDim a b = specPairDim a b := by
  unfold combineDim specPairDim
  by_cases hab : a = b
  · simp [hab]
  · by_cases ha : a = 1
    · simp [hab, ha]
    · by_cases hb : b = 1 <;> simp [hab, ha, hb]

theorem specPairDim_one_right (a : Nat) : specPairDim a 1 = .ok a := by
  unfold specPairDim
  by_cases h : a = 1 <;> simp [h]

theorem zipSpecDims_ones (s : List Nat) :
    zipSpecDims s (List.replicate s.length 1) = .ok s := by
  induction s with
  | nil => rfl
  | cons a t ih =>
      simp [zipSpecDims, List.replicate_succ, specPairDim_one_right, ih,
        Bind.bind, Except.bind, pure, Except.pure]

theorem combineDims_eq_zip (t s : List Nat) (h : t.length ≤ s.length) :
    combineDims s t
      = zipSpecDims s (t ++ List.replicate (s.length - t.length) 1) := by
  induction t generalizing s with
  | nil => simpa [combineDims] using (zipSpecDims_ones s).symm
  | cons b t ih =>
      cases s with
      | nil => simp at h
      | cons a s' =>
          have h' : t.length ≤ s'.length := by simpa using h
          have hlen : (a :: s').length - (b :: t).length = s'.length - t.length := by
            simp
          simp [combineDims, zipSpecDims, hlen,
            combineDim_eq_specPairDim, ih s' h']

theorem SingletonExpandedSizePair_eq_spec (s t : List Nat) :
    SingletonExpandedSizePair s t = broadcastPairSpec s t := by
  unfold SingletonExpandedSizePair broadcastPairSpec padTo
  rcases Nat.le_total t.length s.length with h | h
  · have h1 : t.length - s.length = 0 := Nat.sub_eq_zero_of_le h
    have h2 : max s.length t.length = s.length := Nat.max_eq_left h
    rw [h1, h2, Nat.sub_self]
    simpa [List.replicate] using combineDims_eq_zip t s h
  · have h1 : max s.length t.length = t.length := Nat.max_eq_right h
    have hlen : (s ++ List.replicate (t.length - s.length) 1).length = t.length := by
      simp [Nat.add_sub_cancel' h]
    have h2 : t.length ≤ (s ++ List.replicate (t.length - s.length) 1).length := by
      rw [hlen]
    rw [h1, Nat.sub_self]
    have := combineDims_eq_zip t (s ++ List.replicate (t.length - s.length) 1) h2
    rw [hlen] at this
    simpa [List.replicate] using this

/-- C1: for every ordered list of one or more arrays, `SingletonExpandedSize`
(the C++ fold over the static helper) computes exactly the shape the spec
prescribes: a left-to-right fold of the singleton-expandable rule, where the
shorter shape is right-padded with size-1 entries, each result dimension is
the non-1 value of the pair, and a pair with both sizes unequal and neither
equal to 1 yields the `DimensionMismatch` error (at the first incompatible
operand pair, since the fold stops there). -/
theorem singletonExpandedSize_matches_spec (s : List Nat)
    (rest : List (List Nat)) :
    SingletonExpandedSize (s :: rest) = ComputeBroadcastShape (s :: rest) := by
  have h : SingletonExpandedSizePair = broadcastPairSpec :=
    funext fun a => funext fun b => SingletonExpandedSizePair_eq_spec a b
  show rest.foldlM SingletonExpandedSizePair s = rest.foldlM broadcastPairSpec s
  rw [h]

theorem opdStep_eq_or (strides : List Int) (dims : List Nat) (pd ii : Nat) :
    opdStep strides dims pd ii = pd ∨ opdStep strides dims pd ii = ii := by
  unfold opdStep
  split_ifs <;> simp

theorem opdGo_lt (strides : List Int) (dims : List Nat) :
    ∀ fuel pd ii, pd < strides.length →
      opdGo strides dims fuel pd ii < strides.length := by
  intro fuel
  induction fuel with
  | zero => intro pd ii h; simpa [opdGo] using h
  | succ fuel ih =>
      intro pd ii h
      by_cases hii : ii < strides.length
      · rw [opdGo, if_pos hii]
        apply ih
        rcases opdStep_eq_or strides dims pd ii with he | he <;> rw [he]
        · exact h
        · exact hii
      · rw [opdGo, if_neg hii]; exact h

/-- C10: for every array with at least one dimension the selected processing
dimension is a valid index (strictly less than the number of dimensions),
and for an array with zero dimensions the function returns 0. -/
theorem optimalProcessingDim_in_range (strides : List Int) (dims : List Nat) :
    (0 < strides.length → OptimalProcessingDim strides dims < strides.length)
      ∧ (strides.length = 0 → OptimalProcessingDim strides dims = 0) := by
  constructor
  · intro h
    exact opdGo_lt strides dims strides.length 0 1 h
  · intro h
    unfold OptimalProcessingDim
    rw [h]
    rfl

/-- Witness for C10 at a concrete three-dimensional array. -/
theorem optimalProcessingDim_in_range_witness :
    OptimalProcessingDim [3, 1, 2] [100, 200, 50] < 3 :=
  (optimalProcessingDim_in_range [3, 1, 2] [100, 200, 50]).1 (by decide)

theorem opdStep_at_m_big (strides : List Int) (dims : List Nat) (m pd : Nat)
    (hfirst : ∀ j, j < m → strides.getD m 0 < strides.getD j 0)
    (hbig : 63 < dims.getD m 0) (hpd : pd < m) :
    opdStep strides dims pd m = m := by
  unfold opdStep
  rw [if_pos (hfirst pd hpd), if_pos (Or.inl hbig)]

theorem opdStep_after_m_big (strides : List Int) (dims : List Nat) (m ii : Nat)
    (hmin : ∀ j, j < strides.length → strides.getD m 0 ≤ strides.getD j 0)
    (hbig : 63 < dims.getD m 0) (hii : ii < strides.length) :
    opdStep strides dims m ii = m := by
  unfold opdStep
  rw [if_neg (not_lt.mpr (hmin ii hii))]
  rw [if_neg (by intro h; exact absurd h.1 (not_le.mpr hbig))]

theorem opdGo_first_min_big (strides : List Int) (dims : List Nat) (m : Nat)
    (hm : m < strides.length)
    (hmin : ∀ j, j < strides.length → strides.getD m 0 ≤ strides.getD j 0)
    (hfirst : ∀ j, j < m → strides.getD m 0 < strides.getD j 0)
    (hbig : 63 < dims.getD m 0) :
    ∀ fuel ii pd, strides.length ≤ ii + fuel →
      ((ii ≤ m → pd < ii) ∧ (m < ii → pd = m)) →
      opdGo strides dims fuel pd ii = m := by
  intro fuel
  induction fuel with
  | zero =>
      intro ii pd hfuel hinv
      have hmi : m < ii := lt_of_lt_of_le hm (by omega)
      simpa [opdGo] using hinv.2 hmi
  | succ fuel ih =>
      intro ii pd hfuel hinv
      by_cases hlt : ii < strides.length
      · rw [opdGo, if_pos hlt]
        apply ih (ii + 1) _ (by omega)
        rcases Nat.lt_trichotomy ii m with hc | hc | hc
        · constructor
          · intro _
            have hpd : pd < ii := hinv.1 (le_of_lt hc)
            rcases opdStep_eq_or strides dims pd ii with he | he <;> omega
          · omega
        · subst hc
          have hpd : pd < ii := hinv.1 le_rfl
          constructor
          · omega
          · intro _
            exact opdStep_at_m_big strides dims ii pd hfirst hbig hpd
        · constructor
          · omega
          · intro _
            have hpd : pd = m := hinv.2 hc
            rw [hpd]
            exact opdStep_after_m_big strides dims m ii hmin hbig hlt
      · rw [opdGo, if_neg hlt]
        have hmi : m < ii := by omega
        exact hinv.2 hmi

theorem opdStep_at_m_small (strides : List Int) (dims : List Nat) (m pd : Nat)
    (hfirst : ∀ j, j < m → strides.getD m 0 < strides.getD j 0)
    (hpd : pd < m) :
    dims.getD m 0 ≤ dims.getD (opdStep strides dims pd m) 0 := by
  unfold opdStep
  rw [if_pos (hfirst pd hpd)]
  by_cases hin : 63 < dims.getD m 0 ∨ dims.getD pd 0 < dims.getD m 0
  · rcases hin with h | h
    · rw [if_pos (Or.inl h)]
    · rw [if_pos (Or.inr h)]
  · rw [if_neg hin]
    push_neg at hin
    exact hin.2

theorem opdStep_after_m_small (strides : List Int) (dims : List Nat)
    (m pd ii : Nat) (hsmall : dims.getD m 0 ≤ 63)
    (hinv : dims.getD m 0 ≤ dims.getD pd 0) :
    dims.getD m 0 ≤ dims.getD (opdStep strides dims pd ii) 0 := by
  unfold opdStep
  split_ifs with h1 h2 h3
  · rcases h2 with h | h <;> omega
  · exact hinv
  · omega
  · exact hinv

theorem opdGo_first_min_small (strides : List Int) (dims : List Nat) (m : Nat)
    (hm : m < strides.length)
    (hfirst : ∀ j, j < m → strides.getD m 0 < strides.getD j 0)
    (hsmall : dims.getD m 0 ≤ 63) :
    ∀ fuel ii pd, strides.length ≤ ii + fuel →
      ((ii ≤ m → pd < ii) ∧ (m < ii → dims.getD m 0 ≤ dims.getD pd 0)) →
      dims.getD m 0 ≤ dims.getD (opdGo strides dims fuel pd ii) 0 := by
  intro fuel
  induction fuel with
  | zero =>
      intro ii pd hfuel hinv
      have hmi : m < ii := lt_of_lt_of_le hm (by omega)
      simpa [opdGo] using hinv.2 hmi
  | succ fuel ih =>
      intro ii pd hfuel hinv
      by_cases hlt : ii < strides.length
      · rw [opdGo, if_pos hlt]
        apply ih (ii + 1) _ (by omega)
        rcases Nat.lt_trichotomy ii m with hc | hc | hc
        · constructor
          · intro _
            have hpd : pd < ii := hinv.1 (le_of_lt hc)
            rcases opdStep_eq_or strides dims pd ii with he | he <;> omega
          · omega
        · subst hc
          have hpd : pd < ii := hinv.1 le_rfl
          constructor
          · omega
          · intro _
            exact opdStep_at_m_small strides dims ii pd hfirst hpd
        · constructor
          · omega
          · intro _
            exact opdStep_after_m_small strides dims m pd ii hsmall (hinv.2 hc)
      · rw [opdGo, if_neg hlt]
        have hmi : m < ii := by omega
        exact hinv.2 hmi

/-- C2 (amended): `OptimalProcessingDim` compares strides by signed value,
not magnitude, and its left-to-right scan guarantees: the first dimension
attaining the smallest signed stride is returned whenever its extent
exceeds the small-image threshold 63; when that dimension's extent is at
most 63, the returned dimension's extent is at least as large as it (the
scan may settle on a dimension that is neither the smallest-stride one nor
one of strictly larger extent, e.g. an earlier dimension of equal extent,
the first dimension encountered winning such comparisons). -/
theorem optimalProcessingDim_policy (strides : List Int) (dims : List Nat)
    (m : Nat) (hm : m < strides.length)
    (hmin : ∀ j, j < strides.length → strides.getD m 0 ≤ strides.getD j 0)
    (hfirst : ∀ j, j < m → strides.getD m 0 < strides.getD j 0) :
    (63 < dims.getD m 0 → OptimalProcessingDim strides dims = m)
      ∧ (dims.getD m 0 ≤ 63 →
          dims.getD m 0 ≤ dims.getD (OptimalProcessingDim strides dims) 0) := by
  constructor
  · intro hbig
    apply opdGo_first_min_big strides dims m hm hmin hfirst hbig
      strides.length 1 0 (by omega)
    constructor
    · intro _; omega
    · intro h1; omega
  · intro hsmall
    apply opdGo_first_min_small strides dims m hm hfirst hsmall
      strides.length 1 0 (by omega)
    constructor
    · intro _; omega
    · intro h1
      have : m = 0 := by omega
      rw [this]

/-- Witness for C2 (amended): for strides `[3, 1, 2]` and sizes
`[100, 200, 50]`, dimension 1 has the smallest signed stride and extent
above 63, so it is returned. -/
theorem optimalProcessingDim_policy_witness :
    OptimalProcessingDim [3, 1, 2] [100, 200, 50] = 1 :=
  (optimalProcessingDim_policy [3, 1, 2] [100, 200, 50] 1 (by decide)
    (by decide) (by decide)).1 (by decide)

/-- C2 counterexample: for strides `[2, 1]` and sizes `[5, 5]` the code
returns dimension 0, although dimension 1 has the strictly smallest stride
magnitude and no dimension has an extent strictly larger than dimension 1's,
so the claimed policy (return the smallest-stride-magnitude dimension unless
its extent is below the threshold and another dimension is strictly larger)
would return dimension 1. -/
theorem optimalProcessingDim_claim_cex :
    OptimalProcessingDim [2, 1] [5, 5] = 0 ∧
    (∀ j < 2, j ≠ 1 →
      (([2, 1] : List Int).getD 1 0).natAbs
        < (([2, 1] : List Int).getD j 0).natAbs) ∧
    (∀ j < 2, ¬ ([5, 5] : List Nat).getD 1 0 < ([5, 5] : List Nat).getD j 0) ∧
    (0 : Nat) ≠ 1 := by
  refine ⟨by decide, by decide, by decide, by decide⟩

theorem specPairDim_comm (a b : Nat) : specPairDim a b = specPairDim b a := by
  unfold specPairDim
  by_cases h1 : a = b
  · simp [h1]
  · have h1' : ¬ b = a := fun h => h1 h.symm
    by_cases h2 : a = 1 <;> by_cases h3 : b = 1 <;> simp_all

theorem zipSpecDims_comm : ∀ s t, zipSpecDims s t = zipSpecDims t s := by
  intro s
  induction s with
  | nil => intro t; cases t <;> rfl
  | cons a s' ih =>
      intro t
      cases t with
      | nil => rfl
      | cons b t' => simp [zipSpecDims, specPairDim_comm a b, ih t']

theorem broadcastPairSpec_comm (s t : List Nat) :
    broadcastPairSpec s t = broadcastPairSpec t s := by
  unfold broadcastPairSpec
  rw [Nat.max_comm s.length t.length, zipSpecDims_comm]

theorem zipSpecDims_cons_ok {a b : Nat} {s t r : List Nat}
    (h : zipSpecDims (a :: s) (b :: t) = .ok r) :
    ∃ x r', specPairDim a b = .ok x ∧ zipSpecDims s t = .ok r'
      ∧ r = x :: r' := by
  unfold zipSpecDims at h
  cases hx : specPairDim a b with
  | error e => rw [hx] at h; simp [Bind.bind, Except.bind] at h
  | ok x =>
      rw [hx] at h
      cases hr : zipSpecDims s t with
      | error e => rw [hr] at h; simp [Bind.bind, Except.bind] at h
      | ok r' =>
          rw [hr] at h
          simp only [Bind.bind, Except.bind, pure, Except.pure,
            Except.ok.injEq] at h
          exact ⟨x, r', rfl, rfl, h.symm⟩

theorem zipSpecDims_ok_length : ∀ {u v r : List Nat},
    zipSpecDims u v = .ok r → r.length = u.length := by
  intro u
  induction u with
  | nil =>
      intro v r h
      cases v with
      | nil =>
          simp only [zipSpecDims, Except.ok.injEq] at h
          simp [← h]
      | cons b t => simp [zipSpecDims] at h
  | cons a u' ih =>
      intro v r h
      cases v with
      | nil => simp [zipSpecDims] at h
      | cons b v' =>
          obtain ⟨x, r', _, hr, hrr⟩ := zipSpecDims_cons_ok h
          subst hrr
          simp [ih hr]

theorem zipSpecDims_append_ones (j : Nat) :
    ∀ u v, u.length = v.length →
      zipSpecDims (u ++ List.replicate j 1) (v ++ List.replicate j 1)
        = (zipSpecDims u v).map (fun r => r ++ List.replicate j 1) := by
  intro u
  induction u with
  | nil =>
      intro v hv
      have hvnil : v = [] := List.eq_nil_of_length_eq_zero hv.symm
      subst hvnil
      have h1 := zipSpecDims_ones (List.replicate j 1)
      rw [List.length_replicate] at h1
      simpa [zipSpecDims, Except.map] using h1
  | cons a u' ih =>
      intro v hv
      cases v with
      | nil => simp at hv
      | cons b v' =>
          have hv' : u'.length = v'.length := by simpa using hv
          have ih' := ih v' hv'
          cases hx : specPairDim a b with
          | error e =>
              simp [zipSpecDims, hx, Bind.bind, Except.bind, Except.map]
          | ok x =>
              cases hr : zipSpecDims u' v' with
              | error e =>
                  rw [hr] at ih'
                  simp [zipSpecDims, hx, hr, ih', Bind.bind, Except.bind,
                    Except.map]
              | ok r =>
                  rw [hr] at ih'
                  simp [zipSpecDims, hx, hr, ih', Bind.bind, Except.bind,
                    Except.map, pure, Except.pure]

theorem padTo_split (s : List Nat) (m n : Nat) (hs : s.length ≤ n)
    (hnm : n ≤ m) :
    padTo m s = padTo n s ++ List.replicate (m - n) 1 := by
  unfold padTo
  rw [List.append_assoc, ← List.replicate_add]
  have : m - s.length = n - s.length + (m - n) := by omega
  rw [this]

theorem broadcastPairSpec_pad (s t : List Nat) (m : Nat)
    (h : max s.length t.length ≤ m) :
    zipSpecDims (padTo m s) (padTo m t)
      = (broadcastPairSpec s t).map
          (fun r => r ++ List.replicate (m - max s.length t.length) 1) := by
  have hs : s.length ≤ max s.length t.length := le_max_left _ _
  have ht : t.length ≤ max s.length t.length := le_max_right _ _
  have hlen : (padTo (max s.length t.length) s).length
      = (padTo (max s.length t.length) t).length := by
    simp only [padTo, List.length_append, List.length_replicate]
    omega
  rw [padTo_split s m (max s.length t.length) hs h,
    padTo_split t m (max s.length t.length) ht h,
    zipSpecDims_append_ones (m - max s.length t.length) _ _ hlen]
  rfl

theorem specPairDim_exchange (a b c x y z : Nat)
    (hab : specPairDim a b = .ok x) (hac : specPairDim a c = .ok y)
    (hbc : specPairDim b c = .ok z) :
    ∃ w, specPairDim x c = .ok w ∧ specPairDim y b = .ok w := by
  unfold specPairDim at hab hac hbc ⊢
  by_cases h1 : a = b <;> by_cases h2 : a = 1 <;> by_cases h3 : b = 1 <;>
    by_cases h4 : a = c <;> by_cases h5 : c = 1 <;> by_cases h6 : b = c <;>
      simp_all

theorem zipSpec_exchange :
    ∀ (A B C ab ac bc : List Nat),
      zipSpecDims A B = .ok ab → zipSpecDims A C = .ok ac →
      zipSpecDims B C = .ok bc →
      ∃ sh, zipSpecDims ab C = .ok sh ∧ zipSpecDims ac B = .ok sh := by
  intro A
  induction A with
  | nil =>
      intro B C ab ac bc hab hac hbc
      cases B with
      | cons b B' => simp [zipSpecDims] at hab
      | nil =>
          cases C with
          | cons c C' => simp [zipSpecDims] at hac
          | nil =>
              simp only [zipSpecDims, Except.ok.injEq] at hab hac
              exact ⟨[], by simp [zipSpecDims, ← hab],
                by simp [zipSpecDims, ← hac]⟩
  | cons a A' ih =>
      intro B C ab ac bc hab hac hbc
      cases B with
      | nil => simp [zipSpecDims] at hab
      | cons b B' =>
          cases C with
          | nil => simp [zipSpecDims] at hac
          | cons c C' =>
              obtain ⟨x, ab', hx, hab', habeq⟩ := zipSpecDims_cons_ok hab
              obtain ⟨y, ac', hy, hac', haceq⟩ := zipSpecDims_cons_ok hac
              obtain ⟨z, bc', hz, hbc', hbceq⟩ := zipSpecDims_cons_ok hbc
              obtain ⟨w, hw1, hw2⟩ := specPairDim_exchange a b c x y z hx hy hz
              obtain ⟨sh', hsh1, hsh2⟩ := ih B' C' ab' ac' bc' hab' hac' hbc'
              subst habeq
              subst haceq
              refine ⟨w :: sh', ?_, ?_⟩
              · simp [zipSpecDims, hw1, hsh1, Bind.bind, Except.bind, pure,
                  Except.pure]
              · simp [zipSpecDims, hw2, hsh2, Bind.bind, Except.bind, pure,
                  Except.pure]

/-- C3: for three arrays whose shapes are pairwise broadcast-compatible,
folding the shape computation over `[A, B, C]` and over `[C, A, B]` yields
the same result shape. -/
theorem singletonExpandedSize_order_independent (A B C : List Nat)
    (hAB : ∃ r, SingletonExpandedSizePair A B = .ok r)
    (hAC : ∃ r, SingletonExpandedSizePair A C = .ok r)
    (hBC : ∃ r, SingletonExpandedSizePair B C = .ok r) :
    ∃ sh, SingletonExpandedSize [A, B, C] = .ok sh
      ∧ SingletonExpandedSize [C, A, B] = .ok sh := by
  obtain ⟨ab, hab⟩ := hAB
  obtain ⟨ac, hac⟩ := hAC
  obtain ⟨bc, hbc⟩ := hBC
  rw [SingletonExpandedSizePair_eq_spec] at hab hac hbc
  have hab_len : ab.length = max A.length B.length := by
    unfold broadcastPairSpec at hab
    have := zipSpecDims_ok_length hab
    simp only [padTo, List.length_append, List.length_replicate] at this
    omega
  have hac_len : ac.length = max A.length C.length := by
    unfold broadcastPairSpec at hac
    have := zipSpecDims_ok_length hac
    simp only [padTo, List.length_append, List.length_replicate] at this
    omega
  have hmAB : max A.length B.length ≤ max (max A.length B.length) C.length :=
    le_max_left _ _
  have hmAC : max A.length C.length ≤ max (max A.length B.length) C.length :=
    max_le (le_trans (le_max_left _ _) (le_max_left _ _))
      (le_max_right _ _)
  have hmBC : max B.length C.length ≤ max (max A.length B.length) C.length :=
    max_le (le_trans (le_max_right _ _) (le_max_left _ _))
      (le_max_right _ _)
  have eAB := broadcastPairSpec_pad A B _ hmAB
  have eAC := broadcastPairSpec_pad A C _ hmAC
  have eBC := broadcastPairSpec_pad B C _ hmBC
  rw [hab, Except.map] at eAB
  rw [hac, Except.map] at eAC
  rw [hbc, Except.map] at eBC
  obtain ⟨sh, hsh1, hsh2⟩ := zipSpec_exchange _ _ _ _ _ _ eAB eAC eBC
  have key1 : broadcastPairSpec ab C = .ok sh := by
    unfold broadcastPairSpec
    have hk : max ab.length C.length = max (max A.length B.length) C.length := by
      rw [hab_len]
    rw [hk]
    have hpad : padTo (max (max A.length B.length) C.length) ab
        = ab ++ List.replicate
            (max (max A.length B.length) C.length - max A.length B.length) 1 := by
      unfold padTo
      rw [hab_len]
    rw [hpad]
    exact hsh1
  have key2 : broadcastPairSpec ac B = .ok sh := by
    unfold broadcastPairSpec
    have hk : max ac.length B.length = max (max A.length B.length) C.length := by
      rw [hac_len]
      exact sup_right_comm A.length C.length B.length
    rw [hk]
    have hpad : padTo (max (max A.length B.length) C.length) ac
        = ac ++ List.replicate
            (max (max A.length B.length) C.length - max A.length C.length) 1 := by
      unfold padTo
      rw [hac_len]
    rw [hpad]
    exact hsh2
  have hca : broadcastPairSpec C A = .ok ac := by
    rw [broadcastPairSpec_comm]; exact hac
  have e1 : SingletonExpandedSizePair A B = .ok ab := by
    rw [SingletonExpandedSizePair_eq_spec]; exact hab
  have e2 : SingletonExpandedSizePair ab C = .ok sh := by
    rw [SingletonExpandedSizePair_eq_spec]; exact key1
  have e3 : SingletonExpandedSizePair C A = .ok ac := by
    rw [SingletonExpandedSizePair_eq_spec]; exact hca
  have e4 : SingletonExpandedSizePair ac B = .ok sh := by
    rw [SingletonExpandedSizePair_eq_spec]; exact key2
  refine ⟨sh, ?_, ?_⟩
  · show [B, C].foldlM SingletonExpandedSizePair A = .ok sh
    simp [List.foldlM, e1, e2, Bind.bind, Except.bind, pure, Except.pure]
  · show [A, B].foldlM SingletonExpandedSizePair C = .ok sh
    simp [List.foldlM, e3, e4, Bind.bind, Except.bind, pure, Except.pure]

/-- Witness for C3 at three concrete pairwise-compatible shapes. -/
theorem singletonExpandedSize_order_independent_witness :
    ∃ sh, SingletonExpandedSize [[2, 1], [1, 3], [2]] = .ok sh
      ∧ SingletonExpandedSize [[2], [2, 1], [1, 3]] = .ok sh :=
  singletonExpandedSize_order_independent [2, 1] [1, 3] [2]
    ⟨[2, 3], rfl⟩ ⟨[2, 1], rfl⟩ ⟨[2, 3], rfl⟩

theorem sameUnits_iff (nD : Nat) (pixelSize : Nat → PixUnits) (h2 : 2 ≤ nD) :
    (IsPhysical (pixelSize 0) &&
        (List.range' 1 (nD - 1)).all (fun ii => pixelSize ii == pixelSize 0))
        = true
      ↔ AllAxesSamePhysicalUnit nD pixelSize := by
  rw [Bool.and_eq_true, List.all_eq_true]
  unfold AllAxesSamePhysicalUnit
  constructor
  · rintro ⟨hphys, hall⟩
    refine ⟨hphys, ?_⟩
    intro i hi
    rcases Nat.eq_zero_or_pos i with rfl | hpos
    · rfl
    · have : i ∈ List.range' 1 (nD - 1) := by
        rw [List.mem_range'_1]
        omega
      simpa using hall i this
  · rintro ⟨hphys, hall⟩
    refine ⟨hphys, ?_⟩
    intro i hi
    rw [List.mem_range'_1] at hi
    have := hall i (by omega)
    simp [this]

/-- C9: for every accepted input (`grey` scalar, label dimensionality 2 or
3), `FeatureGreyDimensionsCube::Initialize` returns exactly one value-
information entry per spatial dimension, and every entry's units are the
image's shared per-axis pixel-size unit when all axes carry one and the
same physical unit, and the pixel-count unit otherwise. -/
theorem initializeGreyDimensionsCube_spec (nD : Nat)
    (pixelSize : Nat → PixUnits) (h2 : 2 ≤ nD) (h3 : nD ≤ 3) :
    ∃ out, InitializeGreyDimensionsCube true nD pixelSize = .ok out
      ∧ out.length = nD
      ∧ ∀ e ∈ out, e.units =
          if AllAxesSamePhysicalUnit nD pixelSize then pixelSize 0
          else .pixel := by
  unfold InitializeGreyDimensionsCube
  rw [if_neg (by simp), if_neg (by omega)]
  refine ⟨_, rfl, by simp, ?_⟩
  intro e he
  simp only [List.mem_map] at he
  obtain ⟨i, _, rfl⟩ := he
  by_cases hs : AllAxesSamePhysicalUnit nD pixelSize
  · rw [if_pos hs, if_pos ((sameUnits_iff nD pixelSize h2).2 hs)]
  · rw [if_neg hs, if_neg (fun hb => hs ((sameUnits_iff nD pixelSize h2).1 hb))]

/-- Witness for C9 at a concrete 2-dimensional image with matching physical
units on both axes. -/
theorem initializeGreyDimensionsCube_spec_witness :
    ∃ out, InitializeGreyDimensionsCube true 2 (fun _ => .physical 7) = .ok out
      ∧ out.length = 2
      ∧ ∀ e ∈ out, e.units =
          if AllAxesSamePhysicalUnit 2 (fun _ => .physical 7)
          then PixUnits.physical 7 else .pixel :=
  initializeGreyDimensionsCube_spec 2 (fun _ => .physical 7) (by decide)
    (by decide)

theorem le_foldr_max (label : List Nat) :
    ∀ v ∈ label, v ≤ label.foldr max 0 := by
  induction label with
  | nil => intro v hv; cases hv
  | cons a t ih =>
      intro v hv
      rcases List.mem_cons.1 hv with rfl | hv
      · exact le_max_left _ _
      · exact le_trans (ih v hv) (le_max_right _ _)

theorem mem_presentLabels (label : List Nat) (v : Nat) :
    v ∈ presentLabels label ↔ v ≠ 0 ∧ v ∈ label := by
  unfold presentLabels
  rw [List.mem_filter, List.mem_range]
  constructor
  · rintro ⟨_, hb⟩
    simp only [Bool.and_eq_true, bne_iff_ne, ne_eq] at hb
    refine ⟨hb.1, ?_⟩
    have := hb.2
    simpa using this
  · rintro ⟨h0, hv⟩
    refine ⟨Nat.lt_succ_of_le (le_foldr_max label v hv), ?_⟩
    simp [h0, hv]

theorem presentLabels_nodup (label : List Nat) :
    (presentLabels label).Nodup :=
  (List.nodup_range _).filter _

theorem presentLabels_pairwise (label : List Nat) :
    List.Pairwise (· < ·) (presentLabels label) :=
  (List.pairwise_lt_range _).filter _

theorem indexOf_lt_of_pairwise_lt {l : List Nat}
    (hp : List.Pairwise (· < ·) l) :
    ∀ v w, v ∈ l → w ∈ l → v < w → l.indexOf v < l.indexOf w := by
  induction l with
  | nil => intro v w hv; cases hv
  | cons a t ih =>
      intro v w hv hw hvw
      have ha : ∀ x ∈ t, a < x := fun x hx => (List.pairwise_cons.1 hp).1 x hx
      have hp' : List.Pairwise (· < ·) t := (List.pairwise_cons.1 hp).2
      rcases List.mem_cons.1 hv with hva | hvt
      · have hwa : a ≠ w := by intro h; omega
        have hwt : w ∈ t := by
          rcases List.mem_cons.1 hw with h | h
          · exact absurd h (by intro hh; omega)
          · exact h
        rw [hva, List.indexOf_cons_self, List.indexOf_cons_ne t hwa]
        exact Nat.succ_pos _
      · have hav : a < v := ha v hvt
        have hvne : a ≠ v := by omega
        have hwne : a ≠ w := by omega
        have hwt : w ∈ t := by
          rcases List.mem_cons.1 hw with h | h
          · exact absurd h (by intro hh; omega)
          · exact h
        rw [List.indexOf_cons_ne t hvne, List.indexOf_cons_ne t hwne]
        exact Nat.succ_lt_succ (ih hp' v w hvt hwt hvw)

theorem presentLabels_length (label : List Nat) :
    (presentLabels label).length = (label.toFinset.erase 0).card := by
  have h1 : (presentLabels label).toFinset = label.toFinset.erase 0 := by
    ext v
    rw [List.mem_toFinset, mem_presentLabels, Finset.mem_erase,
      List.mem_toFinset]
  rw [← h1, List.toFinset_card_of_nodup (presentLabels_nodup label)]

/-- C5: for every label array with `K` distinct positive labels, `Relabel`
produces an array whose positive values are exactly `{1, ..., K}`, assigned
preserving the relative order of the original label values, and background
pixels (value 0) stay 0. -/
theorem relabel_spec (label : List Nat) :
    (∀ i, i < label.length → label.getD i 0 = 0 → (Relabel label).getD i 0 = 0)
    ∧ (∀ v, (v ∈ Relabel label ∧ v ≠ 0) ↔
        (1 ≤ v ∧ v ≤ (label.toFinset.erase 0).card))
    ∧ (∀ i j, i < label.length → j < label.length →
        0 < label.getD i 0 → label.getD i 0 < label.getD j 0 →
        (Relabel label).getD i 0 < (Relabel label).getD j 0) := by
  have hlen : (Relabel label).length = label.length := by
    unfold Relabel; simp
  have hget : ∀ i (h : i < label.length),
      (Relabel label).getD i 0
        = (if label[i] = 0 then 0
            else (presentLabels label).indexOf label[i] + 1) := by
    intro i h
    unfold Relabel
    rw [List.getD_eq_getElem _ _ (by simpa using h), List.getElem_map]
  refine ⟨?_, ?_, ?_⟩
  · intro i hi h0
    rw [List.getD_eq_getElem _ _ hi] at h0
    rw [hget i hi, if_pos h0]
  · intro v
    constructor
    · rintro ⟨hv, hv0⟩
      unfold Relabel at hv
      rw [List.mem_map] at hv
      obtain ⟨u, hu, hfu⟩ := hv
      by_cases hu0 : u = 0
      · rw [hu0] at hfu; simp at hfu; exact absurd hfu.symm hv0
      · rw [if_neg hu0] at hfu
        have hup : u ∈ presentLabels label :=
          (mem_presentLabels label u).2 ⟨hu0, hu⟩
        have hlt : (presentLabels label).indexOf u
            < (presentLabels label).length :=
          List.indexOf_lt_length.2 hup
        rw [← presentLabels_length]
        omega
    · rintro ⟨h1, hK⟩
      rw [← presentLabels_length] at hK
      have hi : v - 1 < (presentLabels label).length := by omega
      have hmem : (presentLabels label)[v - 1] ∈ presentLabels label :=
        List.getElem_mem _
      have hprops := (mem_presentLabels label _).1 hmem
      have hidx : (presentLabels label).indexOf ((presentLabels label)[v - 1])
          = v - 1 :=
        List.indexOf_getElem (presentLabels_nodup label) (v - 1) hi
      constructor
      · unfold Relabel
        rw [List.mem_map]
        refine ⟨(presentLabels label)[v - 1], hprops.2, ?_⟩
        rw [if_neg hprops.1, hidx]
        omega
      · omega
  · intro i j hi hj hpos hlt
    rw [List.getD_eq_getElem _ _ hi] at hpos hlt
    rw [List.getD_eq_getElem _ _ hj] at hlt
    have hi0 : label[i] ≠ 0 := by omega
    have hj0 : label[j] ≠ 0 := by omega
    have hmi : label[i] ∈ presentLabels label :=
      (mem_presentLabels label _).2 ⟨hi0, List.getElem_mem _⟩
    have hmj : label[j] ∈ presentLabels label :=
      (mem_presentLabels label _).2 ⟨hj0, List.getElem_mem _⟩
    rw [hget i hi, hget j hj, if_neg hi0, if_neg hj0]
    have := indexOf_lt_of_pairwise_lt (presentLabels_pairwise label)
      label[i] label[j] hmi hmj hlt
    omega

/-- Witness for C5: concrete order preservation on `[5, 0, 2]` (original
labels 2 < 5, so renumbered pixel 2 gets a smaller label than pixel 0). -/
theorem relabel_spec_witness :
    (Relabel [5, 0, 2]).getD 2 0 < (Relabel [5, 0, 2]).getD 0 0 :=
  (relabel_spec [5, 0, 2]).2.2 2 0 (by decide) (by decide) (by decide)
    (by decide)

theorem getD_map_range {α : Type} (n p : Nat) (f : Nat → α) (d : α) :
    ((List.range n).map f).getD p d = if p < n then f p else d := by
  by_cases h : p < n
  · rw [if_pos h, List.getD_eq_getElem _ _ (by simpa using h)]
    simp
  · rw [if_neg h]
    apply List.getD_eq_default
    simpa using h

theorem growStep_preserves_nonzero (n : Nat) (adj : Nat → Nat → Bool)
    (mask : Nat → Bool) (lab : List Nat) (p : Nat)
    (h : lab.getD p 0 ≠ 0) (hp : p < n) :
    (GrowStep n adj mask lab).getD p 0 ≠ 0 := by
  unfold GrowStep
  rw [getD_map_range, if_pos hp]
  simp only [ne_eq, h, not_false_eq_true, if_true]

/-- C6 (amended): for every iteration count `n ≥ 1` (excluding the
fixed-point sentinel 0), the non-background pixels of the `n`-iteration
result of `GrowRegions` are a subset of those of the `n + 1`-iteration
result: regions only grow. -/
theorem growRegions_monotone (n : Nat) (adj : Nat → Nat → Bool)
    (mask : Nat → Bool) (lab : List Nat) (iterations : Nat)
    (hit : 1 ≤ iterations) (p : Nat)
    (h : (GrowRegions n adj mask lab iterations).getD p 0 ≠ 0) :
    (GrowRegions n adj mask lab (iterations + 1)).getD p 0 ≠ 0 := by
  unfold GrowRegions at h ⊢
  rw [if_neg (by omega)] at h
  rw [if_neg (by omega), Function.iterate_succ_apply']
  by_cases hp : p < n
  · exact growStep_preserves_nonzero n adj mask _ p h hp
  · exfalso
    apply h
    obtain ⟨j, rfl⟩ : ∃ j, iterations = j + 1 := ⟨iterations - 1, by omega⟩
    rw [Function.iterate_succ_apply']
    unfold GrowStep
    apply List.getD_eq_default
    simpa using hp

/-- Witness for C6 (amended) on a concrete 3-pixel line. -/
theorem growRegions_monotone_witness :
    (GrowRegions 3 (fun p q => p + 1 == q || q + 1 == p) (fun _ => true)
        [1, 0, 0] 2).getD 1 0 ≠ 0 :=
  growRegions_monotone 3 (fun p q => p + 1 == q || q + 1 == p)
    (fun _ => true) [1, 0, 0] 1 (by decide) 1 (by decide)

/-- C6 counterexample: the claim quantifies over every iteration count `n`,
but `iterations = 0` is the grow-to-fixed-point sentinel: on a 3-pixel line
with one seed, the 0-iteration (fixed-point) result labels pixel 2 while
the 1-iteration result leaves it background, so the non-background set of
the `n = 0` run is not a subset of that of the `n + 1 = 1` run. -/
theorem growRegions_monotone_cex :
    (GrowRegions 3 (fun p q => p + 1 == q || q + 1 == p) (fun _ => true)
        [1, 0, 0] 0).getD 2 0 ≠ 0
    ∧ (GrowRegions 3 (fun p q => p + 1 == q || q + 1 == p) (fun _ => true)
        [1, 0, 0] 1).getD 2 0 = 0 := by
  refine ⟨by decide, by decide⟩

/-- C8: `GrowRegionsWeighted` called with a non-empty mask raises the
`NotImplemented` error rather than silently ignoring the mask; with no mask
it returns the weighted growth itself, unaffected. -/
theorem growRegionsWeighted_mask_notImplemented (n : Nat)
    (adj : Nat → Nat → Bool) (lab grey : List Nat) (mask : List Bool)
    (stepWeight : Nat) :
    (mask ≠ [] → GrowRegionsWeighted n adj lab grey mask stepWeight
        = .error .notImplemented)
    ∧ (mask = [] → GrowRegionsWeighted n adj lab grey mask stepWeight
        = .ok (WeightedGrowCore n adj lab grey stepWeight)) := by
  constructor
  · intro h
    unfold GrowRegionsWeighted
    rw [if_pos h]
  · intro h
    unfold GrowRegionsWeighted
    rw [if_neg (by simp [h])]

/-- Witness for C8: a concrete call with a non-empty mask errors out. -/
theorem growRegionsWeighted_mask_witness :
    GrowRegionsWeighted 2 (fun p q => p + 1 == q || q + 1 == p)
        [1, 0] [0, 0] [true, true] 1 = .error .notImplemented :=
  (growRegionsWeighted_mask_notImplemented 2
    (fun p q => p + 1 == q || q + 1 == p) [1, 0] [0, 0] [true, true] 1).1
    (by simp)

theorem mem_nbrs (n : Nat) (adj : Nat → Nat → Bool) (mask : Nat → Bool)
    (p q : Nat) :
    q ∈ nbrs n adj mask p ↔ q < n ∧ adj p q = true ∧ mask q = true := by
  unfold nbrs
  rw [Finset.mem_filter, Finset.mem_range]

theorem mem_Foreground (n : Nat) (mask : Nat → Bool) (q : Nat) :
    q ∈ Foreground n mask ↔ q < n ∧ mask q = true := by
  unfold Foreground
  rw [Finset.mem_filter, Finset.mem_range]

theorem subset_grow1 (n : Nat) (adj : Nat → Nat → Bool) (mask : Nat → Bool)
    (S : Finset Nat) : S ⊆ grow1 n adj mask S :=
  Finset.subset_union_left

theorem grow1_mono (n : Nat) (adj : Nat → Nat → Bool) (mask : Nat → Bool)
    {S T : Finset Nat} (h : S ⊆ T) :
    grow1 n adj mask S ⊆ grow1 n adj mask T :=
  Finset.union_subset_union h
    (Finset.biUnion_subset_biUnion_of_subset_left _ h)

theorem iterate_grow1_subset_succ (n : Nat) (adj : Nat → Nat → Bool)
    (mask : Nat → Bool) (S : Finset Nat) (k : Nat) :
    (grow1 n adj mask)^[k] S ⊆ (grow1 n adj mask)^[k + 1] S := by
  rw [Function.iterate_succ_apply']
  exact subset_grow1 n adj mask _

theorem iterate_grow1_mono (n : Nat) (adj : Nat → Nat → Bool)
    (mask : Nat → Bool) (S : Finset Nat) {k l : Nat} (h : k ≤ l) :
    (grow1 n adj mask)^[k] S ⊆ (grow1 n adj mask)^[l] S := by
  induction l with
  | zero =>
      have hk : k = 0 := by omega
      subst hk
      exact subset_rfl
  | succ l ih =>
      rcases Nat.lt_or_ge k (l + 1) with h' | h'
      · exact subset_trans (ih (by omega))
          (iterate_grow1_subset_succ n adj mask S l)
      · have hk : k = l + 1 := by omega
        subst hk
        exact subset_rfl

theorem mem_component_self (n : Nat) (adj : Nat → Nat → Bool)
    (mask : Nat → Bool) (p : Nat) : p ∈ component n adj mask p :=
  iterate_grow1_mono n adj mask {p} (Nat.zero_le n)
    (Finset.mem_singleton_self p)

theorem mem_iterate_grow1 (n : Nat) (adj : Nat → Nat → Bool)
    (mask : Nat → Bool) (p : Nat) :
    ∀ k q, q ∈ (grow1 n adj mask)^[k] {p} →
      q = p ∨ (q < n ∧ mask q = true) := by
  intro k
  induction k with
  | zero => intro q hq; left; simpa using hq
  | succ k ih =>
      intro q hq
      rw [Function.iterate_succ_apply'] at hq
      unfold grow1 at hq
      rcases Finset.mem_union.1 hq with h | h
      · exact ih q h
      · rcases Finset.mem_biUnion.1 h with ⟨r, _, hr⟩
        right
        have := (mem_nbrs n adj mask r q).1 hr
        exact ⟨this.1, this.2.2⟩

theorem component_subset_range (n : Nat) (adj : Nat → Nat → Bool)
    (mask : Nat → Bool) (p : Nat) (hp : p < n) :
    component n adj mask p ⊆ Finset.range n := by
  intro q hq
  rcases mem_iterate_grow1 n adj mask p n q hq with h | h
  · subst h; exact Finset.mem_range.2 hp
  · exact Finset.mem_range.2 h.1

theorem component_stable (n : Nat) (adj : Nat → Nat → Bool)
    (mask : Nat → Bool) (p : Nat) (hp : p < n) :
    grow1 n adj mask (component n adj mask p) = component n adj mask p := by
  have aux : ∀ k, grow1 n adj mask ((grow1 n adj mask)^[k] {p})
      = (grow1 n adj mask)^[k] {p}
      ∨ k + 1 ≤ ((grow1 n adj mask)^[k] {p}).card := by
    intro k
    induction k with
    | zero => right; simp
    | succ k ih =>
        rcases ih with hstab | hcard
        · left
          rw [Function.iterate_succ_apply', hstab, hstab]
        · by_cases heq : grow1 n adj mask ((grow1 n adj mask)^[k] {p})
              = (grow1 n adj mask)^[k] {p}
          · left
            rw [Function.iterate_succ_apply', heq, heq]
          · right
            rw [Function.iterate_succ_apply']
            have hsub : (grow1 n adj mask)^[k] {p}
                ⊆ grow1 n adj mask ((grow1 n adj mask)^[k] {p}) :=
              subset_grow1 n adj mask _
            have hlt : ((grow1 n adj mask)^[k] {p}).card
                < (grow1 n adj mask ((grow1 n adj mask)^[k] {p})).card :=
              Finset.card_lt_card
                (Finset.ssubset_iff_subset_ne.2 ⟨hsub, fun h => heq h.symm⟩)
            omega
  rcases aux n with h | h
  · exact h
  · exfalso
    have hsub : (grow1 n adj mask)^[n] {p} ⊆ Finset.range n :=
      component_subset_range n adj mask p hp
    have hc := Finset.card_le_card hsub
    rw [Finset.card_range] at hc
    omega

theorem closed_iterate_subset (n : Nat) (adj : Nat → Nat → Bool)
    (mask : Nat → Bool) {C : Finset Nat}
    (hC : grow1 n adj mask C = C) (q : Nat) (hq : q ∈ C) :
    ∀ k, (grow1 n adj mask)^[k] {q} ⊆ C := by
  intro k
  induction k with
  | zero => simpa using hq
  | succ k ih =>
      rw [Function.iterate_succ_apply']
      calc grow1 n adj mask ((grow1 n adj mask)^[k] {q})
          ⊆ grow1 n adj mask C := grow1_mono n adj mask ih
        _ = C := hC

theorem component_trans (n : Nat) (adj : Nat → Nat → Bool)
    (mask : Nat → Bool) (p q : Nat) (hp : p < n)
    (hq : q ∈ component n adj mask p) :
    component n adj mask q ⊆ component n adj mask p :=
  closed_iterate_subset n adj mask
    (component_stable n adj mask p hp) q hq n

theorem component_subset_foreground (n : Nat) (adj : Nat → Nat → Bool)
    (mask : Nat → Bool) (p : Nat) (hp : p < n) (hm : mask p = true) :
    component n adj mask p ⊆ Foreground n mask := by
  intro q hq
  rw [mem_Foreground]
  rcases mem_iterate_grow1 n adj mask p n q hq with h | h
  · subst h; exact ⟨hp, hm⟩
  · exact h

theorem component_symm (n : Nat) (adj : Nat → Nat → Bool)
    (mask : Nat → Bool) (hadj : ∀ a b, adj a b = adj b a)
    (p : Nat) (hp : p < n) (hm : mask p = true) :
    ∀ k q, q ∈ (grow1 n adj mask)^[k] {p} → p ∈ component n adj mask q := by
  intro k
  induction k with
  | zero =>
      intro q hq
      simp only [Function.iterate_zero_apply, Finset.mem_singleton] at hq
      rw [hq]
      exact mem_component_self n adj mask p
  | succ k ih =>
      intro q hq
      rw [Function.iterate_succ_apply'] at hq
      unfold grow1 at hq
      rcases Finset.mem_union.1 hq with h | h
      · exact ih q h
      · rcases Finset.mem_biUnion.1 h with ⟨r, hr, hqr⟩
        have hpr : p ∈ component n adj mask r := ih r hr
        have hrfg : r < n ∧ mask r = true := by
          rcases mem_iterate_grow1 n adj mask p k r hr with h' | h'
          · rw [h']; exact ⟨hp, hm⟩
          · exact h'
        have hq' := (mem_nbrs n adj mask r q).1 hqr
        have hrq : r ∈ nbrs n adj mask q := by
          rw [mem_nbrs]
          exact ⟨hrfg.1, by rw [hadj q r]; exact hq'.2.1, hrfg.2⟩
        have hr1 : r ∈ (grow1 n adj mask)^[1] {q} := by
          rw [Function.iterate_one]
          unfold grow1
          exact Finset.mem_union_right _
            (Finset.mem_biUnion.2 ⟨q, Finset.mem_singleton_self q, hrq⟩)
        have hrcomp : r ∈ component n adj mask q :=
          iterate_grow1_mono n adj mask {q} (by omega : 1 ≤ n) hr1
        exact component_trans n adj mask q r hq'.1 hrcomp hpr

theorem component_eq_of_mem (n : Nat) (adj : Nat → Nat → Bool)
    (mask : Nat → Bool) (hadj : ∀ a b, adj a b = adj b a)
    (p q : Nat) (hp : p < n) (hm : mask p = true)
    (hq : q ∈ component n adj mask p) :
    component n adj mask q = component n adj mask p := by
  have hqf := (mem_Foreground n mask q).1
    (component_subset_foreground n adj mask p hp hm hq)
  apply subset_antisymm
  · exact component_trans n adj mask p q hp hq
  · exact component_trans n adj mask q p hqf.1
      (component_symm n adj mask hadj p hp hm n q hq)

theorem CompRep_eq_min' (n : Nat) (adj : Nat → Nat → Bool)
    (mask : Nat → Bool) (p : Nat) :
    CompRep n adj mask p
      = (component n adj mask p).min'
          ⟨p, mem_component_self n adj mask p⟩ := by
  unfold CompRep
  rw [← Finset.coe_min' ⟨p, mem_component_self n adj mask p⟩]
  rfl

theorem CompRep_mem (n : Nat) (adj : Nat → Nat → Bool) (mask : Nat → Bool)
    (p : Nat) : CompRep n adj mask p ∈ component n adj mask p := by
  rw [CompRep_eq_min']
  exact Finset.min'_mem _ _

theorem CompRep_congr (n : Nat) (adj : Nat → Nat → Bool) (mask : Nat → Bool)
    {p q : Nat} (h : component n adj mask p = component n adj mask q) :
    CompRep n adj mask p = CompRep n adj mask q := by
  unfold CompRep
  rw [h, ← Finset.coe_min' ⟨q, mem_component_self n adj mask q⟩]
  rfl

theorem component_CompRep (n : Nat) (adj : Nat → Nat → Bool)
    (mask : Nat → Bool) (hadj : ∀ a b, adj a b = adj b a)
    (p : Nat) (hp : p < n) (hm : mask p = true) :
    component n adj mask (CompRep n adj mask p) = component n adj mask p :=
  component_eq_of_mem n adj mask hadj p _ hp hm (CompRep_mem n adj mask p)

theorem CompRep_foreground (n : Nat) (adj : Nat → Nat → Bool)
    (mask : Nat → Bool) (p : Nat) (hp : p < n) (hm : mask p = true) :
    CompRep n adj mask p < n ∧ mask (CompRep n adj mask p) = true :=
  (mem_Foreground n mask _).1
    (component_subset_foreground n adj mask p hp hm (CompRep_mem n adj mask p))

theorem CompRep_idem (n : Nat) (adj : Nat → Nat → Bool) (mask : Nat → Bool)
    (hadj : ∀ a b, adj a b = adj b a) (p : Nat) (hp : p < n)
    (hm : mask p = true) :
    CompRep n adj mask (CompRep n adj mask p) = CompRep n adj mask p :=
  CompRep_congr n adj mask (component_CompRep n adj mask hadj p hp hm)

theorem mem_CompReps (n : Nat) (adj : Nat → Nat → Bool) (mask : Nat → Bool)
    (r : Nat) :
    r ∈ CompReps n adj mask
      ↔ r < n ∧ mask r = true ∧ CompRep n adj mask r = r := by
  unfold CompReps
  rw [List.mem_filter, List.mem_range, Bool.and_eq_true, beq_iff_eq]

theorem CompReps_nodup (n : Nat) (adj : Nat → Nat → Bool)
    (mask : Nat → Bool) : (CompReps n adj mask).Nodup :=
  (List.nodup_range n).filter _

theorem CompRep_mem_CompReps (n : Nat) (adj : Nat → Nat → Bool)
    (mask : Nat → Bool) (hadj : ∀ a b, adj a b = adj b a)
    (p : Nat) (hp : p < n) (hm : mask p = true) :
    CompRep n adj mask p ∈ CompReps n adj mask := by
  rw [mem_CompReps]
  obtain ⟨h1, h2⟩ := CompRep_foreground n adj mask p hp hm
  exact ⟨h1, h2, CompRep_idem n adj mask hadj p hp hm⟩

theorem RawLabel_fg (n : Nat) (adj : Nat → Nat → Bool) (mask : Nat → Bool)
    (p : Nat) (hp : p < n) (hm : mask p = true) :
    RawLabel n adj mask p
      = (CompReps n adj mask).indexOf (CompRep n adj mask p) + 1 := by
  unfold RawLabel
  rw [if_pos ⟨hp, hm⟩]

theorem RawLabel_bg (n : Nat) (adj : Nat → Nat → Bool) (mask : Nat → Bool)
    (p : Nat) (h : ¬(p < n ∧ mask p = true)) :
    RawLabel n adj mask p = 0 := by
  unfold RawLabel
  rw [if_neg h]

theorem RawLabel_pos (n : Nat) (adj : Nat → Nat → Bool) (mask : Nat → Bool)
    (p : Nat) (hp : p < n) (hm : mask p = true) :
    1 ≤ RawLabel n adj mask p := by
  rw [RawLabel_fg n adj mask p hp hm]
  omega

theorem RawLabel_le (n : Nat) (adj : Nat → Nat → Bool) (mask : Nat → Bool)
    (hadj : ∀ a b, adj a b = adj b a) (p : Nat) (hp : p < n)
    (hm : mask p = true) :
    RawLabel n adj mask p ≤ (CompReps n adj mask).length := by
  rw [RawLabel_fg n adj mask p hp hm]
  have := List.indexOf_lt_length.2
    (CompRep_mem_CompReps n adj mask hadj p hp hm)
  omega

theorem RawLabel_eq_iff (n : Nat) (adj : Nat → Nat → Bool)
    (mask : Nat → Bool) (hadj : ∀ a b, adj a b = adj b a)
    (p q : Nat) (hp : p < n) (hmp : mask p = true) (hq : q < n)
    (hmq : mask q = true) :
    RawLabel n adj mask p = RawLabel n adj mask q
      ↔ component n adj mask p = component n adj mask q := by
  rw [RawLabel_fg n adj mask p hp hmp, RawLabel_fg n adj mask q hq hmq]
  constructor
  · intro h
    have h' : (CompReps n adj mask).indexOf (CompRep n adj mask p)
        = (CompReps n adj mask).indexOf (CompRep n adj mask q) := by omega
    have hrr := (List.indexOf_inj
      (CompRep_mem_CompReps n adj mask hadj p hp hmp)
      (CompRep_mem_CompReps n adj mask hadj q hq hmq)).1 h'
    calc component n adj mask p
        = component n adj mask (CompRep n adj mask p) :=
          (component_CompRep n adj mask hadj p hp hmp).symm
      _ = component n adj mask (CompRep n adj mask q) := by rw [hrr]
      _ = component n adj mask q :=
          component_CompRep n adj mask hadj q hq hmq
  · intro h
    rw [CompRep_congr n adj mask h]

theorem Components_eq (n : Nat) (adj : Nat → Nat → Bool)
    (mask : Nat → Bool) (hadj : ∀ a b, adj a b = adj b a) :
    Components n adj mask
      = (CompReps n adj mask).toFinset.image (component n adj mask) := by
  unfold Components
  apply subset_antisymm
  · intro c hc
    rcases Finset.mem_image.1 hc with ⟨p, hp, rfl⟩
    have hpf := (mem_Foreground n mask p).1 hp
    exact Finset.mem_image.2 ⟨CompRep n adj mask p,
      List.mem_toFinset.2
        (CompRep_mem_CompReps n adj mask hadj p hpf.1 hpf.2),
      component_CompRep n adj mask hadj p hpf.1 hpf.2⟩
  · intro c hc
    rcases Finset.mem_image.1 hc with ⟨r, hr, rfl⟩
    have hrf := (mem_CompReps n adj mask r).1 (List.mem_toFinset.1 hr)
    exact Finset.mem_image.2
      ⟨r, (mem_Foreground n mask r).2 ⟨hrf.1, hrf.2.1⟩, rfl⟩

theorem component_injOn_CompReps (n : Nat) (adj : Nat → Nat → Bool)
    (mask : Nat → Bool) :
    Set.InjOn (component n adj mask)
      ((CompReps n adj mask).toFinset : Set Nat) := by
  intro r1 h1 r2 h2 h
  have hr1 := (mem_CompReps n adj mask r1).1
    (List.mem_toFinset.1 (Finset.mem_coe.1 h1))
  have hr2 := (mem_CompReps n adj mask r2).1
    (List.mem_toFinset.1 (Finset.mem_coe.1 h2))
  calc r1 = CompRep n adj mask r1 := hr1.2.2.symm
    _ = CompRep n adj mask r2 := CompRep_congr n adj mask h
    _ = r2 := hr2.2.2

theorem Components_card (n : Nat) (adj : Nat → Nat → Bool)
    (mask : Nat → Bool) (hadj : ∀ a b, adj a b = adj b a) :
    (Components n adj mask).card = (CompReps n adj mask).length := by
  rw [Components_eq n adj mask hadj,
    Finset.card_image_of_injOn (component_injOn_CompReps n adj mask),
    List.toFinset_card_of_nodup (CompReps_nodup n adj mask)]

theorem label_fiber (n : Nat) (adj : Nat → Nat → Bool) (mask : Nat → Bool)
    (hadj : ∀ a b, adj a b = adj b a) (p : Nat) (hp : p < n)
    (hm : mask p = true) :
    (Finset.range n).filter
        (fun q => RawLabel n adj mask q = RawLabel n adj mask p)
      = component n adj mask p := by
  ext q
  rw [Finset.mem_filter, Finset.mem_range]
  constructor
  · rintro ⟨hqn, heq⟩
    have hpos : 1 ≤ RawLabel n adj mask p := RawLabel_pos n adj mask p hp hm
    have hqm : mask q = true := by
      by_contra hqm
      have h0 : RawLabel n adj mask q = 0 :=
        RawLabel_bg n adj mask q (by tauto)
      omega
    have hcomp := (RawLabel_eq_iff n adj mask hadj q p hqn hqm hp hm).1 heq
    rw [← hcomp]
    exact mem_component_self n adj mask q
  · intro hq
    have hqf := (mem_Foreground n mask q).1
      (component_subset_foreground n adj mask p hp hm hq)
    exact ⟨hqf.1, (RawLabel_eq_iff n adj mask hadj q p hqf.1 hqf.2 hp hm).2
      (component_eq_of_mem n adj mask hadj p q hp hm hq)⟩

theorem LabelSize_eq_card (n : Nat) (adj : Nat → Nat → Bool)
    (mask : Nat → Bool) (hadj : ∀ a b, adj a b = adj b a) (p : Nat)
    (hp : p < n) (hm : mask p = true) :
    LabelSize n adj mask (RawLabel n adj mask p)
      = (component n adj mask p).card := by
  unfold LabelSize
  rw [label_fiber n adj mask hadj p hp hm]

theorem label_snd (n : Nat) (adj : Nat → Nat → Bool) (mask : Nat → Bool)
    (minSize maxSize : Nat) :
    (Label n adj mask minSize maxSize).2
      = (List.range n).map (fun p =>
          if RawLabel n adj mask p = 0 then 0
          else if SizeInBounds minSize maxSize
              (LabelSize n adj mask (RawLabel n adj mask p)) = true
            then RawLabel n adj mask p else 0) := rfl

theorem label_fst (n : Nat) (adj : Nat → Nat → Bool) (mask : Nat → Bool)
    (minSize maxSize : Nat) :
    (Label n adj mask minSize maxSize).1
      = ((CompReps n adj mask).filter (fun r =>
          SizeInBounds minSize maxSize
            (LabelSize n adj mask (RawLabel n adj mask r)))).length := rfl

theorem label_out_getD (n : Nat) (adj : Nat → Nat → Bool) (mask : Nat → Bool)
    (minSize maxSize : Nat) (p : Nat) :
    (Label n adj mask minSize maxSize).2.getD p 0
      = if p < n then
          (if RawLabel n adj mask p = 0 then 0
            else if SizeInBounds minSize maxSize
                (LabelSize n adj mask (RawLabel n adj mask p)) = true
              then RawLabel n adj mask p else 0)
        else 0 := by
  rw [label_snd, getD_map_range]

theorem label_out_mem (n : Nat) (adj : Nat → Nat → Bool) (mask : Nat → Bool)
    (minSize maxSize : Nat) (hadj : ∀ a b, adj a b = adj b a)
    (v : Nat) (hv : v ≠ 0) :
    v ∈ (Label n adj mask minSize maxSize).2
      ↔ ∃ r, r ∈ CompReps n adj mask
          ∧ SizeInBounds minSize maxSize
              (LabelSize n adj mask (RawLabel n adj mask r)) = true
          ∧ RawLabel n adj mask r = v := by
  rw [label_snd, List.mem_map]
  constructor
  · rintro ⟨p, hp, hfp⟩
    rw [List.mem_range] at hp
    by_cases h0 : RawLabel n adj mask p = 0
    · rw [if_pos h0] at hfp; exact absurd hfp.symm hv
    · rw [if_neg h0] at hfp
      by_cases hk : SizeInBounds minSize maxSize
          (LabelSize n adj mask (RawLabel n adj mask p)) = true
      · rw [if_pos hk] at hfp
        have hpf : p < n ∧ mask p = true := by
          by_contra hc
          exact h0 (RawLabel_bg n adj mask p hc)
        have hcf := CompRep_foreground n adj mask p hpf.1 hpf.2
        have hre : RawLabel n adj mask (CompRep n adj mask p)
            = RawLabel n adj mask p :=
          (RawLabel_eq_iff n adj mask hadj _ p hcf.1 hcf.2 hpf.1 hpf.2).2
            (component_CompRep n adj mask hadj p hpf.1 hpf.2)
        refine ⟨CompRep n adj mask p,
          CompRep_mem_CompReps n adj mask hadj p hpf.1 hpf.2, ?_, ?_⟩
        · rw [hre]; exact hk
        · rw [hre]; exact hfp
      · rw [if_neg hk] at hfp; exact absurd hfp.symm hv
  · rintro ⟨r, hr, hk, hrv⟩
    have hrc := (mem_CompReps n adj mask r).1 hr
    refine ⟨r, List.mem_range.2 hrc.1, ?_⟩
    have h0 : RawLabel n adj mask r ≠ 0 := by
      have := RawLabel_pos n adj mask r hrc.1 hrc.2.1
      omega
    rw [if_neg h0, if_pos hk]
    exact hrv

theorem label_posValues (n : Nat) (adj : Nat → Nat → Bool)
    (mask : Nat → Bool) (minSize maxSize : Nat)
    (hadj : ∀ a b, adj a b = adj b a) :
    (Label n adj mask minSize maxSize).2.toFinset.erase 0
      = ((CompReps n adj mask).filter (fun r =>
          SizeInBounds minSize maxSize
            (LabelSize n adj mask (RawLabel n adj mask r)))).toFinset.image
          (RawLabel n adj mask) := by
  ext v
  rw [Finset.mem_erase, List.mem_toFinset]
  constructor
  · rintro ⟨hv0, hvmem⟩
    obtain ⟨r, hr, hk, hrv⟩ :=
      (label_out_mem n adj mask minSize maxSize hadj v hv0).1 hvmem
    exact Finset.mem_image.2 ⟨r,
      List.mem_toFinset.2 (List.mem_filter.2 ⟨hr, hk⟩), hrv⟩
  · intro h
    rcases Finset.mem_image.1 h with ⟨r, hr, hrv⟩
    have hrf := List.mem_filter.1 (List.mem_toFinset.1 hr)
    have hrc := (mem_CompReps n adj mask r).1 hrf.1
    have hpos := RawLabel_pos n adj mask r hrc.1 hrc.2.1
    have hv0 : v ≠ 0 := by omega
    exact ⟨hv0, (label_out_mem n adj mask minSize maxSize hadj v hv0).2
      ⟨r, hrf.1, hrf.2, hrv⟩⟩

theorem RawLabel_injOn_CompReps (n : Nat) (adj : Nat → Nat → Bool)
    (mask : Nat → Bool) (hadj : ∀ a b, adj a b = adj b a) {r1 r2 : Nat}
    (h1 : r1 ∈ CompReps n adj mask) (h2 : r2 ∈ CompReps n adj mask)
    (h : RawLabel n adj mask r1 = RawLabel n adj mask r2) : r1 = r2 := by
  have hc1 := (mem_CompReps n adj mask r1).1 h1
  have hc2 := (mem_CompReps n adj mask r2).1 h2
  have hcomp := (RawLabel_eq_iff n adj mask hadj r1 r2 hc1.1 hc1.2.1
    hc2.1 hc2.2.1).1 h
  calc r1 = CompRep n adj mask r1 := hc1.2.2.symm
    _ = CompRep n adj mask r2 := CompRep_congr n adj mask hcomp
    _ = r2 := hc2.2.2

theorem label_posValues_card (n : Nat) (adj : Nat → Nat → Bool)
    (mask : Nat → Bool) (minSize maxSize : Nat)
    (hadj : ∀ a b, adj a b = adj b a) :
    ((Label n adj mask minSize maxSize).2.toFinset.erase 0).card
      = ((CompReps n adj mask).filter (fun r =>
          SizeInBounds minSize maxSize
            (LabelSize n adj mask (RawLabel n adj mask r)))).length := by
  have hinj : Set.InjOn (RawLabel n adj mask)
      ((((CompReps n adj mask).filter (fun r =>
          SizeInBounds minSize maxSize
            (LabelSize n adj mask (RawLabel n adj mask r)))).toFinset :
        Set Nat)) := by
    intro r1 h1 r2 h2 h
    have m1 := List.mem_filter.1 (List.mem_toFinset.1 (Finset.mem_coe.1 h1))
    have m2 := List.mem_filter.1 (List.mem_toFinset.1 (Finset.mem_coe.1 h2))
    exact RawLabel_injOn_CompReps n adj mask hadj m1.1 m2.1 h
  rw [label_posValues n adj mask minSize maxSize hadj,
    Finset.card_image_of_injOn hinj,
    List.toFinset_card_of_nodup ((CompReps_nodup n adj mask).filter _)]

theorem label_count_K (n : Nat) (adj : Nat → Nat → Bool)
    (mask : Nat → Bool) (minSize maxSize : Nat)
    (hadj : ∀ a b, adj a b = adj b a) :
    ((CompReps n adj mask).filter (fun r =>
        SizeInBounds minSize maxSize
          (LabelSize n adj mask (RawLabel n adj mask r)))).length
      = (ComponentsInBounds n adj mask minSize maxSize).card := by
  have hfc : (CompReps n adj mask).toFinset.filter
        (fun a => SizeInBounds minSize maxSize
          ((component n adj mask a).card) = true)
      = (CompReps n adj mask).toFinset.filter
        (fun a => SizeInBounds minSize maxSize
          (LabelSize n adj mask (RawLabel n adj mask a)) = true) := by
    apply Finset.filter_congr
    intro r hr
    have hrc := (mem_CompReps n adj mask r).1 (List.mem_toFinset.1 hr)
    rw [LabelSize_eq_card n adj mask hadj r hrc.1 hrc.2.1]
  symm
  unfold ComponentsInBounds
  rw [Components_eq n adj mask hadj, Finset.filter_image,
    Finset.card_image_of_injOn ((component_injOn_CompReps n adj mask).mono
      (Finset.coe_subset.2 (Finset.filter_subset _ _))), hfc,
    ← List.toFinset_filter,
    List.toFinset_card_of_nodup ((CompReps_nodup n adj mask).filter _)]

/-- C4: for every binary mask (spec-modelled labeling engine) whose
components are counted against the claim-side connectedness notion,
`Label` returns exactly the number `K` of components with size within
`[minSize, maxSize]` (0 disabling either bound), assigns raw labels in
`1..M` with `M` the number of components before filtering, maps background
to 0, does not renumber surviving labels, and the positive values of the
output form a `K`-element subset of `1..M`. -/
theorem label_spec (n : Nat) (adj : Nat → Nat → Bool) (mask : Nat → Bool)
    (minSize maxSize : Nat) (hadj : ∀ a b, adj a b = adj b a) :
    (Label n adj mask minSize maxSize).1
        = (ComponentsInBounds n adj mask minSize maxSize).card
    ∧ (∀ p, mask p = false →
        (Label n adj mask minSize maxSize).2.getD p 0 = 0)
    ∧ (∀ p, (Label n adj mask minSize maxSize).2.getD p 0 ≠ 0 →
        (Label n adj mask minSize maxSize).2.getD p 0
          = RawLabel n adj mask p)
    ∧ (∀ p, RawLabel n adj mask p ≤ (Components n adj mask).card)
    ∧ ((Label n adj mask minSize maxSize).2.toFinset.erase 0
        ⊆ Finset.Icc 1 (Components n adj mask).card)
    ∧ ((Label n adj mask minSize maxSize).2.toFinset.erase 0).card
        = (ComponentsInBounds n adj mask minSize maxSize).card := by
  refine ⟨?_, ?_, ?_, ?_, ?_, ?_⟩
  · rw [label_fst]
    exact label_count_K n adj mask minSize maxSize hadj
  · intro p hm
    rw [label_out_getD]
    by_cases hp : p < n
    · rw [if_pos hp]
      have h0 : RawLabel n adj mask p = 0 :=
        RawLabel_bg n adj mask p (by simp [hm])
      rw [if_pos h0]
    · rw [if_neg hp]
  · intro p hne
    rw [label_out_getD] at hne ⊢
    by_cases hp : p < n
    · rw [if_pos hp] at hne ⊢
      by_cases h0 : RawLabel n adj mask p = 0
      · rw [if_pos h0] at hne; exact absurd rfl hne
      · rw [if_neg h0] at hne ⊢
        by_cases hk : SizeInBounds minSize maxSize
            (LabelSize n adj mask (RawLabel n adj mask p)) = true
        · rw [if_pos hk]
        · rw [if_neg hk] at hne; exact absurd rfl hne
    · rw [if_neg hp] at hne; exact absurd rfl hne
  · intro p
    by_cases hpf : p < n ∧ mask p = true
    · rw [Components_card n adj mask hadj]
      exact RawLabel_le n adj mask hadj p hpf.1 hpf.2
    · rw [RawLabel_bg n adj mask p hpf]
      exact Nat.zero_le _
  · intro v hv
    rw [label_posValues n adj mask minSize maxSize hadj] at hv
    rcases Finset.mem_image.1 hv with ⟨r, hr, hrv⟩
    have hrf := List.mem_filter.1 (List.mem_toFinset.1 hr)
    have hrc := (mem_CompReps n adj mask r).1 hrf.1
    rw [Finset.mem_Icc, ← hrv, Components_card n adj mask hadj]
    exact ⟨RawLabel_pos n adj mask r hrc.1 hrc.2.1,
      RawLabel_le n adj mask hadj r hrc.1 hrc.2.1⟩
  · rw [label_posValues_card n adj mask minSize maxSize hadj]
    exact label_count_K n adj mask minSize maxSize hadj

/-- Witness for C4 on a concrete 4-pixel line with one 2-pixel and one
1-pixel component and `minSize = 2`. -/
theorem label_spec_witness :
    (Label 4 (fun p q => p + 1 == q || q + 1 == p) (fun p => p != 2) 2 0).1
      = (ComponentsInBounds 4 (fun p q => p + 1 == q || q + 1 == p)
          (fun p => p != 2) 2 0).card :=
  (label_spec 4 (fun p q => p + 1 == q || q + 1 == p) (fun p => p != 2) 2 0
    (fun _ _ => Bool.or_comm _ _)).1

theorem nbrs_mono_mask (n : Nat) (adj : Nat → Nat → Bool)
    {m1 m2 : Nat → Bool} (h : ∀ p, m2 p = true → m1 p = true) (p : Nat) :
    nbrs n adj m2 p ⊆ nbrs n adj m1 p := by
  intro q hq
  rw [mem_nbrs] at hq ⊢
  exact ⟨hq.1, hq.2.1, h q hq.2.2⟩

theorem grow1_mono_mask (n : Nat) (adj : Nat → Nat → Bool)
    {m1 m2 : Nat → Bool} (h : ∀ p, m2 p = true → m1 p = true)
    {S T : Finset Nat} (hST : S ⊆ T) :
    grow1 n adj m2 S ⊆ grow1 n adj m1 T := by
  unfold grow1
  apply Finset.union_subset_union hST
  intro q hq
  rcases Finset.mem_biUnion.1 hq with ⟨r, hr, hqr⟩
  exact Finset.mem_biUnion.2 ⟨r, hST hr, nbrs_mono_mask n adj h r hqr⟩

theorem component_mono_mask (n : Nat) (adj : Nat → Nat → Bool)
    {m1 m2 : Nat → Bool} (h : ∀ p, m2 p = true → m1 p = true) (p : Nat) :
    component n adj m2 p ⊆ component n adj m1 p := by
  have key : ∀ k, (grow1 n adj m2)^[k] {p} ⊆ (grow1 n adj m1)^[k] {p} := by
    intro k
    induction k with
    | zero => exact subset_rfl
    | succ k ih =>
        rw [Function.iterate_succ_apply', Function.iterate_succ_apply']
        exact grow1_mono_mask n adj h ih
  exact key n

theorem iterate_subset_component (n : Nat) (adj : Nat → Nat → Bool)
    (mask : Nat → Bool) (p : Nat) (hp : p < n) (k : Nat) :
    (grow1 n adj mask)^[k] {p} ⊆ component n adj mask p :=
  closed_iterate_subset n adj mask (component_stable n adj mask p hp) p
    (mem_component_self n adj mask p) k

theorem component_restrict (n : Nat) (adj : Nat → Nat → Bool)
    {m1 m2 : Nat → Bool} (p : Nat) (hp : p < n)
    (hall : ∀ q ∈ component n adj m1 p, m2 q = true) :
    component n adj m1 p ⊆ component n adj m2 p := by
  have key : ∀ k, (grow1 n adj m1)^[k] {p} ⊆ component n adj m2 p := by
    intro k
    induction k with
    | zero =>
        intro q hq
        simp only [Function.iterate_zero_apply, Finset.mem_singleton] at hq
        rw [hq]
        exact mem_component_self n adj m2 p
    | succ k ih =>
        rw [Function.iterate_succ_apply']
        intro q hq
        have hq1 : q ∈ component n adj m1 p := by
          have hsub : grow1 n adj m1 ((grow1 n adj m1)^[k] {p})
              ⊆ component n adj m1 p := by
            rw [← component_stable n adj m1 p hp]
            exact grow1_mono n adj m1 (iterate_subset_component n adj m1 p hp k)
          exact hsub hq
        have hq2 : m2 q = true := hall q hq1
        unfold grow1 at hq
        rcases Finset.mem_union.1 hq with hq' | hq'
        · exact ih hq'
        · rcases Finset.mem_biUnion.1 hq' with ⟨r, hr, hqr⟩
          have hrm2 : r ∈ component n adj m2 p := ih hr
          have hqprop := (mem_nbrs n adj m1 r q).1 hqr
          have hq2n : q ∈ nbrs n adj m2 r :=
            (mem_nbrs n adj m2 r q).2 ⟨hqprop.1, hqprop.2.1, hq2⟩
          rw [← component_stable n adj m2 p hp]
          unfold grow1
          exact Finset.mem_union_right _
            (Finset.mem_biUnion.2 ⟨r, hrm2, hq2n⟩)
  exact key n

theorem SOR_getD (n : Nat) (adj : Nat → Nat → Bool) (mask : Nat → Bool)
    (t p : Nat) :
    (SmallObjectsRemove n adj mask t).getD p false
      = if p < n then decide ((Label n adj mask t 0).2.getD p 0 ≠ 0)
        else false := by
  unfold SmallObjectsRemove
  rw [getD_map_range]

theorem SOR_mask_iff (n : Nat) (adj : Nat → Nat → Bool) (mask : Nat → Bool)
    (t p : Nat) :
    ((SmallObjectsRemove n adj mask t).getD p false = true)
      ↔ (p < n ∧ mask p = true ∧ SizeInBounds t 0
          (LabelSize n adj mask (RawLabel n adj mask p)) = true) := by
  rw [SOR_getD]
  by_cases hp : p < n
  · rw [if_pos hp, decide_eq_true_eq, label_out_getD, if_pos hp]
    constructor
    · intro h
      by_cases h0 : RawLabel n adj mask p = 0
      · rw [if_pos h0] at h; exact absurd rfl h
      · rw [if_neg h0] at h
        have hpf : p < n ∧ mask p = true := by
          by_contra hc
          exact h0 (RawLabel_bg n adj mask p hc)
        by_cases hk : SizeInBounds t 0
            (LabelSize n adj mask (RawLabel n adj mask p)) = true
        · exact ⟨hp, hpf.2, hk⟩
        · rw [if_neg hk] at h; exact absurd rfl h
    · rintro ⟨_, hm, hk⟩
      have h0 : RawLabel n adj mask p ≠ 0 := by
        have := RawLabel_pos n adj mask p hp hm
        omega
      rw [if_neg h0, if_pos hk]
      exact h0
  · rw [if_neg hp]
    simp [hp]

theorem survivors_le_mask (n : Nat) (adj : Nat → Nat → Bool)
    (mask : Nat → Bool) (t : Nat) :
    ∀ p, (SmallObjectsRemove n adj mask t).getD p false = true →
      mask p = true :=
  fun p h => ((SOR_mask_iff n adj mask t p).1 h).2.1

theorem survivors_component (n : Nat) (adj : Nat → Nat → Bool)
    (mask : Nat → Bool) (t : Nat) (hadj : ∀ a b, adj a b = adj b a)
    (p : Nat)
    (hp2 : (SmallObjectsRemove n adj mask t).getD p false = true) :
    component n adj
        (fun q => (SmallObjectsRemove n adj mask t).getD q false) p
      = component n adj mask p := by
  obtain ⟨hpn, hpm, hpk⟩ := (SOR_mask_iff n adj mask t p).1 hp2
  apply subset_antisymm
  · exact component_mono_mask n adj (survivors_le_mask n adj mask t) p
  · apply component_restrict n adj p hpn
    intro q hq
    have hqf := (mem_Foreground n mask q).1
      (component_subset_foreground n adj mask p hpn hpm hq)
    show (SmallObjectsRemove n adj mask t).getD q false = true
    rw [SOR_mask_iff]
    refine ⟨hqf.1, hqf.2, ?_⟩
    have hcomp : component n adj mask q = component n adj mask p :=
      component_eq_of_mem n adj mask hadj p q hpn hpm hq
    rw [LabelSize_eq_card n adj mask hadj q hqf.1 hqf.2, hcomp,
      ← LabelSize_eq_card n adj mask hadj p hpn hpm]
    exact hpk

theorem SOR_pointwise (n : Nat) (adj : Nat → Nat → Bool)
    (mask : Nat → Bool) (t : Nat) (hadj : ∀ a b, adj a b = adj b a)
    (p : Nat) :
    (SmallObjectsRemove n adj
        (fun q => (SmallObjectsRemove n adj mask t).getD q false) t).getD
          p false
      = (SmallObjectsRemove n adj mask t).getD p false := by
  by_cases hb : (SmallObjectsRemove n adj mask t).getD p false = true
  · rw [hb]
    obtain ⟨hpn, hpm, hpk⟩ := (SOR_mask_iff n adj mask t p).1 hb
    rw [SOR_mask_iff]
    refine ⟨hpn, hb, ?_⟩
    have hc2 := survivors_component n adj mask t hadj p hb
    rw [LabelSize_eq_card n adj
        (fun q => (SmallObjectsRemove n adj mask t).getD q false) hadj
        p hpn hb,
      hc2, ← LabelSize_eq_card n adj mask hadj p hpn hpm]
    exact hpk
  · rw [Bool.not_eq_true] at hb
    rw [hb]
    cases hl : (SmallObjectsRemove n adj
        (fun q => (SmallObjectsRemove n adj mask t).getD q false) t).getD
          p false
    · rfl
    · obtain ⟨hpn, hpm2, _⟩ := (SOR_mask_iff n adj
        (fun q => (SmallObjectsRemove n adj mask t).getD q false) t p).1 hl
      rw [hpm2] at hb
      exact hb

/-- C7: applying the binary path of `SmallObjectsRemove` twice with the
same threshold and connectivity yields the same result as applying it
once: removal deletes whole components, so the surviving mask has exactly
the surviving components, each already of size at least the threshold. -/
theorem smallObjectsRemove_idem (n : Nat) (adj : Nat → Nat → Bool)
    (mask : Nat → Bool) (t : Nat) (hadj : ∀ a b, adj a b = adj b a) :
    SmallObjectsRemove n adj
        (fun p => (SmallObjectsRemove n adj mask t).getD p false) t
      = SmallObjectsRemove n adj mask t := by
  apply List.ext_getElem
  · unfold SmallObjectsRemove
    simp
  · intro i h1 h2
    rw [← List.getD_eq_getElem _ false h1, ← List.getD_eq_getElem _ false h2]
    exact SOR_pointwise n adj mask t hadj i

/-- Witness for C7 on a concrete 4-pixel line with threshold 2. -/
theorem smallObjectsRemove_idem_witness :
    SmallObjectsRemove 4 (fun p q => p + 1 == q || q + 1 == p)
        (fun p => (SmallObjectsRemove 4 (fun p q => p + 1 == q || q + 1 == p)
          (fun p => p != 2) 2).getD p false) 2
      = SmallObjectsRemove 4 (fun p q => p + 1 == q || q + 1 == p)
          (fun p => p != 2) 2 :=
  smallObjectsRemove_idem 4 (fun p q => p + 1 == q || q + 1 == p)
    (fun p => p != 2) 2 (fun _ _ => Bool.or_comm _ _)

example : OptimalProcessingDim [3, 1, 2] [100, 200, 50] = 1 := by decide
example : OptimalProcessingDim [2, 1] [5, 5] = 0 := by decide
example : OptimalProcessingDim [-5, 1] [100, 100] = 0 := by decide
example : SingletonExpandedSize [[2, 1], [1, 3]] = .ok [2, 3] := rfl
example : SingletonExpandedSize [[2], [3]] = .error .dimensionMismatch := rfl
example : ComputeBroadcastShape [[2, 1], [1, 3], [2]] = .ok [2, 3] := rfl
example : Relabel [5, 0, 2, 5] = [2, 0, 1, 2] := by decide
example :
    (Label 4 (fun p q => p + 1 == q || q + 1 == p) (fun p => p != 2) 0 0).2
      = [1, 1, 0, 2] := by decide
example :
    (Label 4 (fun p q => p + 1 == q || q + 1 == p) (fun p => p != 2) 2 0).1
      = 1 := by decide
example :
    GrowRegions 3 (fun p q => p + 1 == q || q + 1 == p) (fun _ => true)
      [1, 0, 0] 0 = [1, 1, 1] := by decide
example :
    GrowRegions 3 (fun p q => p + 1 == q || q + 1 == p) (fun _ => true)
      [1, 0, 0] 1 = [1, 1, 0] := by decide
example :
    GrowRegions 3 (fun p q => p + 1 == q || q + 1 == p) (fun _ => true)
      [1, 0, 2] 0 = [1, 0, 2] := by decide
example :
    SmallObjectsRemove 4 (fun p q => p + 1 == q || q + 1 == p)
      (fun p => p != 2) 2 = [true, true, false, false] := by decide

end Dip
